import Mathlib

/-!
Verification development for the vcf2excel header converter
(src/vcf2excel/Vcf2Excel.py).

The Python source is shallowly embedded over `List Char`:

* `multi_key_parse`, `parse_headers`, `parse_keypair`, `write_spreadsheet`
  keep their source names;
* the regex `(?:[^\s,"]|"(?:\\.|[^"])*")+` used with `re.findall` is embedded
  as `qmatch` (the quoted-span alternative, with its backtracking fallback),
  `munchF` (one greedy match of the whole pattern) and `tokenizeF`
  (the `findall` scan);
* Python exceptions (`IndexError` from `[1]` on a short list,
  `ValueError` for invalid header lines, `NotImplementedError` for
  PEDIGREE lines) become an `Except HeaderErr` result;
* the pandas `NaN` placeholder for an absent field becomes `Option.none`.
-/

namespace Vcf2Excel

/-- Whitespace class of the regex `\s` for ASCII input: space, tab,
newline, carriage return, vertical tab, form feed. -/
def isSpaceChar (c : Char) : Bool :=
  (c == ' ') || (c == '\t') || (c == '\n') || (c == '\r') ||
    (c == '\x0b') || (c == '\x0c')

/-- Character class `[^\s,"]`: a character that may extend a token outside
of a quoted span. -/
def isPlainChar (c : Char) : Bool :=
  !(isSpaceChar c) && !(c == ',') && !(c == '"')

/-- Matcher for the tail of the quoted-span alternative
`"(?:\\.|[^"])*"` of the token regex, entered just after the opening
quote.  Returns `some (consumed, rest)` where `consumed` ends with the
closing quote, or `none` when no closing quote can be reached.  The
branch order mirrors the regex backtracking: at a backslash the escape
`\\.` is preferred, and the single-character reading `[^"]` is the
fallback; `.` does not match a newline. -/
def qmatch : List Char → Option (List Char × List Char)
  | [] => none
  | c :: rest =>
    if c = '"' then some ([c], rest)
    else if c = '\\' then
      match rest with
      | [] => none
      | d :: rest2 =>
        if d = '\n' then
          (qmatch (d :: rest2)).map (fun p => (c :: p.1, p.2))
        else
          match qmatch rest2 with
          | some p => some (c :: d :: p.1, p.2)
          | none => (qmatch (d :: rest2)).map (fun p => (c :: p.1, p.2))
    else (qmatch rest).map (fun p => (c :: p.1, p.2))

/-- One greedy match of the token regex `(?:[^\s,"]|"(?:\\.|[^"])*")+`
at the head of the input, with fuel for termination.  Returns the
matched token (possibly empty, meaning no match) and the unconsumed
rest. -/
def munchF : Nat → List Char → List Char × List Char
  | 0, l => ([], l)
  | _ + 1, [] => ([], [])
  | fuel + 1, c :: rest =>
    if c = '"' then
      match qmatch rest with
      | some p =>
        (c :: (p.1 ++ (munchF fuel p.2).1), (munchF fuel p.2).2)
      | none => ([], c :: rest)
    else if isPlainChar c then
      (c :: (munchF fuel rest).1, (munchF fuel rest).2)
    else ([], c :: rest)

/-- One greedy match of the token regex at the head of the input. -/
def munch (l : List Char) : List Char × List Char :=
  munchF l.length l

/-- The `re.findall` scan with fuel: repeatedly match the token regex;
on a non-empty match continue after it, otherwise advance one
character. -/
def tokenizeF : Nat → List Char → List (List Char)
  | 0, _ => []
  | _ + 1, [] => []
  | fuel + 1, c :: rest =>
    let p := munch (c :: rest)
    if p.1.isEmpty then tokenizeF fuel rest
    else p.1 :: tokenizeF fuel p.2

/-- Embedding of `re.findall(r'(?:[^\s,"]|"(?:\\.|[^"])*")+', line)`. -/
def tokenize (l : List Char) : List (List Char) :=
  tokenizeF l.length l

/-- Embedding of Python `str.split('=')`: split at every `=`. -/
def splitEq : List Char → List (List Char)
  | [] => [[]]
  | c :: rest =>
    if c = '=' then [] :: splitEq rest
    else
      match splitEq rest with
      | p :: ps => (c :: p) :: ps
      | [] => [[c]]

/-- Embedding of Python `str.split('=<')`: split at every non-overlapping
occurrence of the two-character separator `=<`, scanning left to
right. -/
def splitEqLt : List Char → List (List Char)
  | [] => [[]]
  | [c] => [[c]]
  | c :: d :: rest =>
    if c = '=' ∧ d = '<' then
      [] :: splitEqLt rest
    else
      match splitEqLt (d :: rest) with
      | p :: ps => (c :: p) :: ps
      | [] => [[c]]

/-- Whether the two-character sequence `=<` occurs in the line. -/
def containsEqLt : List Char → Bool
  | [] => false
  | [_] => false
  | c :: d :: rest =>
    if c = '=' ∧ d = '<' then true else containsEqLt (d :: rest)

/-- Embedding of Python `line.strip("##")`: remove every leading and
every trailing `#` character (the argument of `strip` is a character
set). -/
def stripHash (l : List Char) : List Char :=
  ((l.dropWhile (fun c => c == '#')).reverse.dropWhile
      (fun c => c == '#')).reverse

/-- Errors a parse run can raise: `indexError` for Python `IndexError`
(list index out of range in `line.split('=<')[1]` or `pair[1]`),
`invalidHeader` for the explicit `ValueError`, and `notImplemented` for
the `NotImplementedError` of `parse_pedigree`. -/
inductive HeaderErr where
  | indexError : HeaderErr
  | invalidHeader : List Char → HeaderErr
  | notImplemented : HeaderErr
deriving Repr, DecidableEq

/-- Record of one bracketed attribute line: each expected field name
paired with its string value, or `none` for the `np.nan` absent
marker. -/
abbrev Rec8 : Type := List (List Char × Option (List Char))

/-- Last-wins lookup in an association list, matching the Python dict
comprehension `{pair[0]: pair[1] for pair in keyvals}` where a later
pair overwrites an earlier one with the same key. -/
def lookupLast (pairs : List (List Char × List Char)) (k : List Char) :
    Option (List Char) :=
  (pairs.reverse.find? (fun p => p.1 == k)).map (fun p => p.2)

/-- Split every token at `=` and keep the first two pieces, as the
comprehensions `[pair.split('=') for pair in pairs]` and
`{pair[0]: pair[1] ...}` do; a token with no `=` raises `IndexError`
at `pair[1]`. -/
def tokensToPairs :
    List (List Char) → Except HeaderErr (List (List Char × List Char))
  | [] => .ok []
  | t :: ts =>
    match splitEq t with
    | a :: b :: _ => (tokensToPairs ts).map (fun ps => (a, b) :: ps)
    | _ => .error .indexError

/-- Field extraction step of `multi_key_parse` on the text between the
brackets: tokenize, split each token at `=`, build the last-wins
mapping and read off the expected fields (absent ones become
`none`). -/
def extract_fields (body : List Char) (fields : List (List Char)) :
    Except HeaderErr Rec8 :=
  (tokensToPairs (tokenize body)).map
    (fun pairs => fields.map (fun f => (f, lookupLast pairs f)))

/-- Embedding of `multi_key_parse`: `line.split('=<')[1][:-1]` (an
`IndexError` when the line has no `=<`), then field extraction. -/
def multi_key_parse (line : List Char) (fields : List (List Char)) :
    Except HeaderErr Rec8 :=
  match splitEqLt line with
  | _ :: p1 :: _ => extract_fields p1.dropLast fields
  | _ => .error .indexError

/-- Expected fields of an INFO line (`self.md_info` columns). -/
def info_fields : List (List Char) :=
  ["ID", "Number", "Type", "Description", "Source", "Version"].map
    String.toList

/-- Expected fields of a FILTER line (`self.md_filter` columns). -/
def filter_fields : List (List Char) :=
  ["ID", "Description"].map String.toList

/-- Expected fields of a FORMAT line (`self.md_format` columns). -/
def format_fields : List (List Char) :=
  ["ID", "Number", "Type", "Description"].map String.toList

/-- Expected fields of an ALT line (`self.md_alt` columns). -/
def alt_fields : List (List Char) :=
  ["ID", "Description"].map String.toList

/-- Expected fields of a contig line (`self.md_contig` columns). -/
def contig_fields : List (List Char) :=
  ["ID", "URL"].map String.toList

/-- Expected fields of a SAMPLE line (`self.md_sample` columns). -/
def sample_fields : List (List Char) :=
  ["ID", "Genomes", "Mixture", "Description"].map String.toList

/-- Columns of the keypair table (`self.md_keypairs`). -/
def keypair_fields : List (List Char) :=
  ["Name", "Value"].map String.toList

/-- Columns of the (always empty) pedigree table (`self.md_pedigree`). -/
def pedigree_fields : List (List Char) :=
  ["Name", "Genome"].map String.toList

/-- The category tables built by a parse run, mirroring the DataFrames
created in `Vcf2Excel.__init__`. -/
structure Tables where
  md_keypairs : List (List Char × List Char)
  md_info : List Rec8
  md_filter : List Rec8
  md_format : List Rec8
  md_alt : List Rec8
  md_contig : List Rec8
  md_sample : List Rec8
  md_pedigree : List Rec8

/-- The empty tables as set up in `Vcf2Excel.__init__`. -/
def initTables : Tables :=
  ⟨[], [], [], [], [], [], [], []⟩

/-- Processing of one marker-stripped header line: the if/elif chain of
`parse_headers`, including the inlined `parse_keypair` (split at `=`
and unpack exactly two pieces) and the `NotImplementedError` raised by
`parse_pedigree`. -/
def processLine (l : List Char) (st : Tables) : Except HeaderErr Tables :=
  if "INFO".toList.isPrefixOf l then
    (multi_key_parse l info_fields).map
      (fun r => { st with md_info := st.md_info ++ [r] })
  else if "FILTER".toList.isPrefixOf l then
    (multi_key_parse l filter_fields).map
      (fun r => { st with md_filter := st.md_filter ++ [r] })
  else if "FORMAT".toList.isPrefixOf l then
    (multi_key_parse l format_fields).map
      (fun r => { st with md_format := st.md_format ++ [r] })
  else if "ALT".toList.isPrefixOf l then
    (multi_key_parse l alt_fields).map
      (fun r => { st with md_alt := st.md_alt ++ [r] })
  else if "contig".toList.isPrefixOf l then
    (multi_key_parse l contig_fields).map
      (fun r => { st with md_contig := st.md_contig ++ [r] })
  else if "SAMPLE".toList.isPrefixOf l then
    (multi_key_parse l sample_fields).map
      (fun r => { st with md_sample := st.md_sample ++ [r] })
  else if "PEDIGREE".toList.isPrefixOf l then
    .error .notImplemented
  else
    match splitEq l with
    | [k, v] =>
      .ok { st with md_keypairs := st.md_keypairs ++ [(k, v)] }
    | _ => .error (.invalidHeader l)

/-- Embedding of `parse_headers` over the ordered header lines: stop at
the first line whose first two characters are not `##`, otherwise strip
the `#` characters and process the line, aborting on the first
error. -/
def parse_headers (lines : List (List Char)) (st : Tables) :
    Except HeaderErr Tables :=
  match lines with
  | [] => .ok st
  | l :: rest =>
    if l.take 2 = ['#', '#'] then
      (processLine (stripHash l) st).bind (fun st2 => parse_headers rest st2)
    else
      .ok st

/-- One output sheet: its name, its header row of column names, and its
data rows. -/
def Sheet : Type := String × List (List Char) × List (List (List Char))

/-- Rendering of one record as a spreadsheet row. Modelled from the
spec: the spreadsheet sink (§6, pandas `to_excel` in the source) is
external code; per its contract an absent (`NaN`) cell is rendered as a
blank cell, here the empty string. -/
def renderRec (r : Rec8) : List (List Char) :=
  r.map (fun p => p.2.getD [])

/-- Embedding of `write_spreadsheet`. The sheet names and their order
are those of the eight `to_excel` calls in the source. Modelled from
the spec: the sink itself (§6) persists each table as a grid whose
first row is the column header and whose later rows are the records in
insertion order. -/
def write_spreadsheet (st : Tables) : List Sheet :=
  [("File Metadata", keypair_fields,
      st.md_keypairs.map (fun p => [p.1, p.2])),
   ("INFO", info_fields, st.md_info.map renderRec),
   ("FILTER", filter_fields, st.md_filter.map renderRec),
   ("FORMAT", format_fields, st.md_format.map renderRec),
   ("ALT", alt_fields, st.md_alt.map renderRec),
   ("contig", contig_fields, st.md_contig.map renderRec),
   ("SAMPLE", sample_fields, st.md_sample.map renderRec),
   ("PEDIGREE", pedigree_fields, st.md_pedigree.map renderRec)]

/-- The whole conversion as run by `Vcf2Excel.__init__`: parse the
header lines, then (only on success) write the spreadsheet. -/
def convert (lines : List (List Char)) : Except HeaderErr (List Sheet) :=
  (parse_headers lines initTables).map write_spreadsheet

/-- Category of a marker-stripped header line. -/
inductive HCat where
  | info
  | filt
  | fmt
  | alt
  | contig
  | sample
  | pedigree
  | keypair
  | malformed
deriving Repr, DecidableEq

/-- Classification performed by the if/elif chain of `parse_headers`,
read off from the source. -/
def classify_code (l : List Char) : HCat :=
  if "INFO".toList.isPrefixOf l then .info
  else if "FILTER".toList.isPrefixOf l then .filt
  else if "FORMAT".toList.isPrefixOf l then .fmt
  else if "ALT".toList.isPrefixOf l then .alt
  else if "contig".toList.isPrefixOf l then .contig
  else if "SAMPLE".toList.isPrefixOf l then .sample
  else if "PEDIGREE".toList.isPrefixOf l then .pedigree
  else if (splitEq l).length = 2 then .keypair
  else .malformed

/-- The ordered prefix/category list of the specification's
classification contract. -/
def spec_prefix_list : List (List Char × HCat) :=
  [("INFO".toList, .info), ("FILTER".toList, .filt),
   ("FORMAT".toList, .fmt), ("ALT".toList, .alt),
   ("contig".toList, .contig), ("SAMPLE".toList, .sample),
   ("PEDIGREE".toList, .pedigree)]

/-- Classification as worded by the specification: test the prefixes in
`spec_prefix_list` in order, first match wins; otherwise KEYPAIR
exactly when splitting at `=` yields two pieces. -/
def classify_spec (l : List Char) : HCat :=
  match spec_prefix_list.find? (fun p => p.1.isPrefixOf l) with
  | some p => p.2
  | none => if (splitEq l).length = 2 then .keypair else .malformed

/-- The six structured prefixes whose lines carry a bracketed attribute
list. -/
def structuredPrefixes : List (List Char) :=
  ["INFO", "FILTER", "FORMAT", "ALT", "contig", "SAMPLE"].map
    String.toList

/-- Serialization of one extracted name/value pair back into a
`name=value` token. -/
def mkTok (p : List Char × List Char) : List Char :=
  p.1 ++ '=' :: p.2

/-- Comma-join of a token list, the shape of a bracketed attribute
body. -/
def joinC : List (List Char) → List Char
  | [] => []
  | [t] => t
  | t :: t2 :: ts => t ++ ',' :: joinC (t2 :: ts)

/-- Re-serialization of a record's present fields as name/value pairs,
in field order; absent fields are omitted. -/
def serializeRec (r : Rec8) : List (List Char × List Char) :=
  r.filterMap (fun p => p.2.map (fun v => (p.1, v)))

/-- One well-formed item inside a double-quoted span: a plain character
(neither a quote nor a backslash), or a backslash escape of any
character other than a newline. -/
def WFInnerItem (it : List Char) : Prop :=
  (∃ c, it = [c] ∧ c ≠ '"' ∧ c ≠ '\\') ∨
    (∃ d, it = ['\\', d] ∧ d ≠ '\n')

/-- One well-formed token unit: a single character outside whitespace,
comma and quote, or a complete double-quoted span of well-formed
items. -/
def PlainOrSpan (u : List Char) : Prop :=
  (∃ c, u = [c] ∧ isPlainChar c = true) ∨
    (∃ items : List (List Char), u = '"' :: (items.flatten ++ ['"']) ∧
      ∀ it ∈ items, WFInnerItem it)

/-- Well-formed field name: nonempty, of plain characters, without
`=`. -/
def GoodName (n : List Char) : Prop :=
  n ≠ [] ∧ ∀ c ∈ n, isPlainChar c = true ∧ c ≠ '='

/-- Well-formed field value: a concatenation of token units, none of
which contains `=` (so the whole token carries exactly one `=`). -/
def GoodVal (v : List Char) : Prop :=
  ∃ us : List (List Char), v = us.flatten ∧ ∀ u ∈ us, PlainOrSpan u ∧ '=' ∉ u

/-- Input at which one greedy token match must stop: the end of the
text, or a character that is neither plain nor a quote (whitespace or a
comma). -/
def IsStopper (rest : List Char) : Prop :=
  rest = [] ∨ ∃ c t, rest = c :: t ∧ isPlainChar c = false ∧ c ≠ '"'

theorem plain_ne_quote {c : Char} (h : isPlainChar c = true) : c ≠ '"' := by
  simp only [isPlainChar, Bool.and_eq_true, Bool.not_eq_true',
    beq_eq_false_iff_ne, ne_eq] at h
  exact h.2

theorem plain_ne_comma {c : Char} (h : isPlainChar c = true) : c ≠ ',' := by
  simp only [isPlainChar, Bool.and_eq_true, Bool.not_eq_true',
    beq_eq_false_iff_ne, ne_eq] at h
  exact h.1.2

theorem qmatch_quote (rest : List Char) :
    qmatch ('"' :: rest) = some (['"'], rest) := by
  rw [qmatch.eq_def]
  simp

theorem qmatch_plain_step (c : Char) (rest : List Char) (h1 : ¬ c = '"')
    (h2 : ¬ c = '\\') :
    qmatch (c :: rest) = (qmatch rest).map (fun p => (c :: p.1, p.2)) := by
  rw [qmatch.eq_def]
  simp [h1, h2]

theorem qmatch_escape_some (d : Char) (rest : List Char)
    (p : List Char × List Char) (hd : ¬ d = '\n') (h : qmatch rest = some p) :
    qmatch ('\\' :: d :: rest) = some ('\\' :: d :: p.1, p.2) := by
  rw [qmatch.eq_def]
  simp [hd, h]

theorem qmatch_flatten (items : List (List Char)) (rest : List Char)
    (h : ∀ it ∈ items, WFInnerItem it) :
    qmatch (items.flatten ++ '"' :: rest) =
      some (items.flatten ++ ['"'], rest) := by
  induction items with
  | nil => simp [qmatch_quote]
  | cons it items ih =>
    have hit := h it (List.mem_cons_self ..)
    have hrest : ∀ x ∈ items, WFInnerItem x :=
      fun x hx => h x (List.mem_cons_of_mem _ hx)
    rcases hit with ⟨c, rfl, hc1, hc2⟩ | ⟨d, rfl, hd⟩
    · simp only [List.flatten_cons, List.singleton_append, List.cons_append,
        List.nil_append]
      rw [qmatch_plain_step c _ hc1 hc2, ih hrest]
      simp
    · simp only [List.flatten_cons, List.cons_append, List.nil_append]
      rw [qmatch_escape_some d _ _ hd (ih hrest)]

theorem munchF_zero (l : List Char) : munchF 0 l = ([], l) := by
  rw [munchF.eq_def]

theorem munchF_nil (fuel : Nat) : munchF fuel [] = ([], []) := by
  cases fuel with
  | zero => rw [munchF.eq_def]
  | succ f => rw [munchF.eq_def]

theorem munchF_stop (fuel : Nat) (c : Char) (t : List Char)
    (h1 : ¬ c = '"') (h2 : isPlainChar c = false) :
    munchF fuel (c :: t) = ([], c :: t) := by
  cases fuel with
  | zero => rw [munchF.eq_def]
  | succ f =>
    rw [munchF.eq_def]
    simp [h1, h2]

theorem munchF_plain (f : Nat) (c : Char) (t : List Char)
    (hc : isPlainChar c = true) :
    munchF (f + 1) (c :: t) = (c :: (munchF f t).1, (munchF f t).2) := by
  rw [munchF.eq_def]
  simp [plain_ne_quote hc, hc]

theorem munchF_quote (f : Nat) (t : List Char) (p : List Char × List Char)
    (h : qmatch t = some p) :
    munchF (f + 1) ('"' :: t) =
      ('"' :: (p.1 ++ (munchF f p.2).1), (munchF f p.2).2) := by
  rw [munchF.eq_def]
  simp [h]

theorem munchF_units (us : List (List Char)) :
    ∀ (fuel : Nat) (rest : List Char),
      (∀ u ∈ us, PlainOrSpan u) → IsStopper rest →
      (us.flatten ++ rest).length ≤ fuel →
      munchF fuel (us.flatten ++ rest) = (us.flatten, rest) := by
  induction us with
  | nil =>
    intro fuel rest _ hstop _
    simp only [List.flatten_nil, List.nil_append]
    rcases hstop with rfl | ⟨c, t, rfl, hc, hq⟩
    · exact munchF_nil fuel
    · exact munchF_stop fuel c t hq hc
  | cons u us ih =>
    intro fuel rest hus hstop hlen
    have hus2 : ∀ x ∈ us, PlainOrSpan x :=
      fun x hx => hus x (List.mem_cons_of_mem _ hx)
    rcases hus u (List.mem_cons_self ..) with ⟨c, rfl, hc⟩ |
      ⟨items, rfl, hitems⟩
    · cases fuel with
      | zero => simp at hlen
      | succ f =>
        have hrec : (us.flatten ++ rest).length ≤ f := by
          simp only [List.flatten_cons, List.singleton_append,
            List.cons_append, List.length_cons, List.length_append] at hlen ⊢
          omega
        simp only [List.flatten_cons, List.singleton_append,
          List.cons_append, List.nil_append]
        rw [munchF_plain f c _ hc, ih f rest hus2 hstop hrec]
    · cases fuel with
      | zero =>
        exfalso
        simp only [List.flatten_cons, List.cons_append,
          List.length_append, List.length_cons, List.length_nil] at hlen
        omega
      | succ f =>
        have hsh : ((('"' :: (items.flatten ++ ['"'])) :: us).flatten
            ++ rest) =
            '"' :: (items.flatten ++ '"' :: (us.flatten ++ rest)) := by
          simp
        have hrec : (us.flatten ++ rest).length ≤ f := by
          simp only [List.flatten_cons, List.cons_append,
            List.length_append, List.length_cons, List.length_nil,
            List.singleton_append] at hlen ⊢
          omega
        rw [hsh, munchF_quote f _ _ (qmatch_flatten items _ hitems),
          ih f rest hus2 hstop hrec]
        simp

theorem flatten_map_singleton (l : List Char) :
    (l.map (fun c => [c])).flatten = l := by
  induction l <;> simp [*]

theorem goodName_no_eq {n : List Char} (h : GoodName n) : '=' ∉ n := by
  intro hm
  exact (h.2 _ hm).2 rfl

theorem goodVal_no_eq {v : List Char} (h : GoodVal v) : '=' ∉ v := by
  obtain ⟨us, rfl, hus⟩ := h
  intro hm
  obtain ⟨u, hu, hmu⟩ := List.mem_flatten.mp hm
  exact (hus u hu).2 hmu

theorem munchF_token (n v : List Char) (fuel : Nat) (rest : List Char)
    (hn : GoodName n) (hv : GoodVal v) (hstop : IsStopper rest)
    (hlen : ((n ++ '=' :: v) ++ rest).length ≤ fuel) :
    munchF fuel ((n ++ '=' :: v) ++ rest) = (n ++ '=' :: v, rest) := by
  obtain ⟨us, rfl, hus⟩ := hv
  have hsh : n ++ '=' :: us.flatten =
      (n.map (fun c => [c]) ++ [['=']] ++ us).flatten := by
    simp [flatten_map_singleton]
  rw [hsh]
  refine munchF_units _ fuel rest ?_ hstop (by rw [← hsh]; exact hlen)
  intro x hx
  rcases List.mem_append.mp hx with hx1 | hx2
  · rcases List.mem_append.mp hx1 with hx3 | hx4
    · obtain ⟨c, hc, rfl⟩ := List.mem_map.mp hx3
      exact Or.inl ⟨c, rfl, (hn.2 c hc).1⟩
    · simp only [List.mem_singleton] at hx4
      subst hx4
      exact Or.inl ⟨'=', rfl, by decide⟩
  · exact (hus x hx2).1

theorem munch_token (n v rest : List Char) (hn : GoodName n)
    (hv : GoodVal v) (hstop : IsStopper rest) :
    munch ((n ++ '=' :: v) ++ rest) = (n ++ '=' :: v, rest) :=
  munchF_token n v _ rest hn hv hstop le_rfl

theorem munch_stop (c : Char) (t : List Char) (h1 : ¬ c = '"')
    (h2 : isPlainChar c = false) : munch (c :: t) = ([], c :: t) :=
  munchF_stop _ c t h1 h2

theorem tokenizeF_nil (fuel : Nat) : tokenizeF fuel [] = [] := by
  cases fuel with
  | zero => rw [tokenizeF.eq_def]
  | succ f => rw [tokenizeF.eq_def]

theorem tokenizeF_cons (fuel : Nat) (c : Char) (rest : List Char) :
    tokenizeF (fuel + 1) (c :: rest) =
      if (munch (c :: rest)).1.isEmpty then tokenizeF fuel rest
      else (munch (c :: rest)).1 :: tokenizeF fuel (munch (c :: rest)).2 :=
  rfl

theorem mkTok_ne_nil (p : List Char × List Char) : mkTok p ≠ [] := by
  simp [mkTok]

theorem tokenizeF_match (f : Nat) (tok rest : List Char) (hne : tok ≠ [])
    (hm : munch (tok ++ rest) = (tok, rest)) :
    tokenizeF (f + 1) (tok ++ rest) = tok :: tokenizeF f rest := by
  cases tok with
  | nil => exact absurd rfl hne
  | cons c cs =>
    rw [List.cons_append] at hm ⊢
    rw [tokenizeF_cons, hm]
    simp

theorem tokenizeF_joinC (toks : List (List Char × List Char)) :
    ∀ fuel : Nat, (∀ p ∈ toks, GoodName p.1 ∧ GoodVal p.2) →
      (joinC (toks.map mkTok)).length ≤ fuel →
      tokenizeF fuel (joinC (toks.map mkTok)) = toks.map mkTok := by
  induction toks with
  | nil =>
    intro fuel _ _
    simpa only [List.map_nil, joinC] using tokenizeF_nil fuel
  | cons p toks ih =>
    intro fuel hg hlen
    have hp := hg p (List.mem_cons_self ..)
    have hg2 : ∀ x ∈ toks, GoodName x.1 ∧ GoodVal x.2 :=
      fun x hx => hg x (List.mem_cons_of_mem _ hx)
    cases toks with
    | nil =>
      simp only [List.map_cons, List.map_nil, joinC] at hlen ⊢
      cases fuel with
      | zero =>
        exfalso
        have := mkTok_ne_nil p
        cases hmk : mkTok p with
        | nil => exact this hmk
        | cons c cs => rw [hmk] at hlen; simp at hlen
      | succ f =>
        have hm : munch (mkTok p ++ []) = (mkTok p, []) := by
          simpa only [mkTok] using
            munch_token p.1 p.2 [] hp.1 hp.2 (Or.inl rfl)
        calc tokenizeF (f + 1) (mkTok p)
            = tokenizeF (f + 1) (mkTok p ++ []) := by rw [List.append_nil]
          _ = mkTok p :: tokenizeF f [] :=
              tokenizeF_match f _ _ (mkTok_ne_nil p) hm
          _ = [mkTok p] := by rw [tokenizeF_nil]
    | cons q toks2 =>
      have hjoin : joinC ((p :: q :: toks2).map mkTok) =
          mkTok p ++ ',' :: joinC ((q :: toks2).map mkTok) := rfl
      set J := joinC ((q :: toks2).map mkTok) with hJ
      have hstop : IsStopper (',' :: J) :=
        Or.inr ⟨',', J, rfl, by decide, by decide⟩
      have hm : munch (mkTok p ++ ',' :: J) = (mkTok p, ',' :: J) := by
        simpa only [mkTok] using
          munch_token p.1 p.2 (',' :: J) hp.1 hp.2 hstop
      have hlen2 : (mkTok p ++ ',' :: J).length ≤ fuel := by
        rw [hjoin] at hlen
        exact hlen
      have hmk1 : 1 ≤ (mkTok p).length := by
        cases hmk : mkTok p with
        | nil => exact absurd hmk (mkTok_ne_nil p)
        | cons c cs => simp
      cases fuel with
      | zero =>
        exfalso
        simp only [List.length_append, List.length_cons] at hlen2
        omega
      | succ f =>
        cases f with
        | zero =>
          exfalso
          simp only [List.length_append, List.length_cons] at hlen2
          omega
        | succ f2 =>
          rw [hjoin, tokenizeF_match (f2 + 1) _ _ (mkTok_ne_nil p) hm]
          rw [tokenizeF_cons, munch_stop ',' J (by decide) (by decide)]
          simp only [List.isEmpty_nil, if_pos]
          rw [ih f2 hg2 (by
            simp only [List.length_append, List.length_cons] at hlen2
            omega)]
          simp

theorem tokenize_joinC (toks : List (List Char × List Char))
    (hg : ∀ p ∈ toks, GoodName p.1 ∧ GoodVal p.2) :
    tokenize (joinC (toks.map mkTok)) = toks.map mkTok :=
  tokenizeF_joinC toks _ hg le_rfl

theorem splitEq_no_eq (l : List Char) (h : '=' ∉ l) : splitEq l = [l] := by
  induction l with
  | nil => rfl
  | cons c rest ih =>
    have hc : ¬ c = '=' := fun hh => h (hh ▸ List.mem_cons_self ..)
    rw [splitEq.eq_def]
    simp only [if_neg hc]
    rw [ih (fun hm => h (List.mem_cons_of_mem _ hm))]

theorem splitEq_single (n v : List Char) (hn : '=' ∉ n) (hv : '=' ∉ v) :
    splitEq (n ++ '=' :: v) = [n, v] := by
  induction n with
  | nil =>
    simp only [List.nil_append]
    rw [splitEq.eq_def]
    simp [splitEq_no_eq v hv]
  | cons c n ih =>
    have hc : ¬ c = '=' := fun hh => hn (hh ▸ List.mem_cons_self ..)
    rw [List.cons_append, splitEq.eq_def]
    simp only [if_neg hc]
    rw [ih (fun hm => hn (List.mem_cons_of_mem _ hm))]

theorem tokensToPairs_ok (toks : List (List Char × List Char))
    (h : ∀ p ∈ toks, '=' ∉ p.1 ∧ '=' ∉ p.2) :
    tokensToPairs (toks.map mkTok) = .ok toks := by
  induction toks with
  | nil => rfl
  | cons p toks ih =>
    have hp := h p (List.mem_cons_self ..)
    have hsp : splitEq (mkTok p) = [p.1, p.2] := by
      simpa only [mkTok] using splitEq_single p.1 p.2 hp.1 hp.2
    simp only [List.map_cons]
    rw [tokensToPairs.eq_def]
    simp only [hsp]
    rw [ih (fun x hx => h x (List.mem_cons_of_mem _ hx))]
    rfl

theorem extract_fields_joinC (toks : List (List Char × List Char))
    (fields : List (List Char))
    (hg : ∀ p ∈ toks, GoodName p.1 ∧ GoodVal p.2) :
    extract_fields (joinC (toks.map mkTok)) fields =
      .ok (fields.map (fun f => (f, lookupLast toks f))) := by
  unfold extract_fields
  rw [tokenize_joinC toks hg,
    tokensToPairs_ok toks (fun p hp =>
      ⟨goodName_no_eq (hg p hp).1, goodVal_no_eq (hg p hp).2⟩)]
  rfl

theorem lookupLast_mem (pairs : List (List Char × List Char))
    (k v : List Char) (h : lookupLast pairs k = some v) : (k, v) ∈ pairs := by
  unfold lookupLast at h
  cases hf : pairs.reverse.find? (fun p => p.1 == k) with
  | none => rw [hf] at h; cases h
  | some q =>
    rw [hf] at h
    have hq : q ∈ pairs := List.mem_reverse.mp (List.mem_of_find?_eq_some hf)
    have hk : q.1 = k := by
      have := List.find?_some hf
      simpa using this
    have hv : q.2 = v := by simpa using h
    have hqe : (k, v) = q := by rw [← hk, ← hv]
    rw [hqe]
    exact hq

theorem lookupLast_eq_none (pairs : List (List Char × List Char))
    (k : List Char) (h : ∀ v, (k, v) ∉ pairs) : lookupLast pairs k = none := by
  unfold lookupLast
  rw [List.find?_eq_none.mpr]
  · rfl
  · intro x hx
    simp only [beq_iff_eq]
    intro hk
    refine h x.2 ?_
    have : x = (k, x.2) := by
      rw [← hk]
    rw [← this]
    exact List.mem_reverse.mp hx

theorem lookupLast_cons (p : List Char × List Char)
    (ps : List (List Char × List Char)) (k : List Char) :
    lookupLast (p :: ps) k =
      match lookupLast ps k with
      | some v => some v
      | none => if p.1 == k then some p.2 else none := by
  cases hl : lookupLast ps k with
  | none =>
    have hf : List.find? (fun x => x.1 == k) ps.reverse = none := by
      unfold lookupLast at hl
      cases hfind : List.find? (fun x => x.1 == k) ps.reverse with
      | none => rfl
      | some q => rw [hfind] at hl; cases hl
    unfold lookupLast
    rw [List.reverse_cons, List.find?_append, hf]
    cases hk : (p.1 == k) <;> simp [List.find?_cons, hk]
  | some v =>
    have hexq : ∃ q, List.find? (fun x => x.1 == k) ps.reverse = some q ∧
        q.2 = v := by
      unfold lookupLast at hl
      cases hfind : List.find? (fun x => x.1 == k) ps.reverse with
      | none => rw [hfind] at hl; cases hl
      | some q =>
        rw [hfind] at hl
        exact ⟨q, rfl, by simpa using hl⟩
    obtain ⟨q, hf, hq⟩ := hexq
    unfold lookupLast
    rw [List.reverse_cons, List.find?_append, hf]
    simp [hq]

theorem lookupLast_nodup (pairs : List (List Char × List Char))
    (k v : List Char) (hnd : (pairs.map Prod.fst).Nodup)
    (hm : (k, v) ∈ pairs) : lookupLast pairs k = some v := by
  induction pairs with
  | nil => cases hm
  | cons p ps ih =>
    rw [lookupLast_cons]
    have hnd2 : p.1 ∉ ps.map Prod.fst ∧ (ps.map Prod.fst).Nodup := by
      rw [List.map_cons, List.nodup_cons] at hnd
      exact hnd
    rcases List.mem_cons.mp hm with heq | htail
    · have hk1 : p.1 = k := by rw [← heq]
      have hknot : k ∉ ps.map Prod.fst := hk1 ▸ hnd2.1
      have hnone : lookupLast ps k = none := by
        refine lookupLast_eq_none ps k (fun w hw => hknot ?_)
        exact List.mem_map_of_mem Prod.fst hw
      rw [hnone, hk1]
      simp only [beq_self_eq_true, if_pos]
      rw [← heq]
    · rw [ih hnd2.2 htail]

theorem serializeRec_mem (r : Rec8) (n v : List Char) :
    (n, v) ∈ serializeRec r ↔ (n, some v) ∈ r := by
  unfold serializeRec
  rw [List.mem_filterMap]
  constructor
  · rintro ⟨p, hp, he⟩
    rcases p with ⟨a, b⟩
    cases b with
    | none => simp at he
    | some w =>
      simp only [Option.map_some', Option.some.injEq, Prod.mk.injEq] at he
      obtain ⟨h1, h2⟩ := he
      subst h1
      subst h2
      exact hp
  · intro h
    exact ⟨(n, some v), h, rfl⟩

theorem serializeRec_fst_sublist (r : Rec8) :
    ((serializeRec r).map Prod.fst).Sublist (r.map Prod.fst) := by
  induction r with
  | nil => simp [serializeRec]
  | cons p r ih =>
    unfold serializeRec at ih ⊢
    cases hp2 : p.2 with
    | none =>
      simp only [List.filterMap_cons, hp2, Option.map_none', List.map_cons]
      exact ih.cons p.1
    | some v =>
      simp only [List.filterMap_cons, hp2, Option.map_some', List.map_cons]
      exact ih.cons₂ p.1

theorem serializeRec_good (toks : List (List Char × List Char))
    (fields : List (List Char))
    (hg : ∀ p ∈ toks, GoodName p.1 ∧ GoodVal p.2)
    (hfn : ∀ f ∈ fields, GoodName f) :
    ∀ p ∈ serializeRec (fields.map (fun f => (f, lookupLast toks f))),
      GoodName p.1 ∧ GoodVal p.2 := by
  rintro ⟨n, v⟩ hp
  have h2 : (n, some v) ∈ fields.map (fun f => (f, lookupLast toks f)) :=
    (serializeRec_mem _ n v).mp hp
  obtain ⟨f, hf, hfe⟩ := List.mem_map.mp h2
  simp only [Prod.mk.injEq] at hfe
  obtain ⟨rfl, hlv⟩ := hfe
  exact ⟨hfn f hf, (hg _ (lookupLast_mem toks f v hlv)).2⟩

theorem lookupLast_serializeRec (toks : List (List Char × List Char))
    (fields : List (List Char)) (hnd : fields.Nodup) (f : List Char)
    (hf : f ∈ fields) :
    lookupLast
        (serializeRec (fields.map (fun g => (g, lookupLast toks g)))) f =
      lookupLast toks f := by
  set rr := fields.map (fun g => (g, lookupLast toks g)) with hrr
  have hfst : rr.map Prod.fst = fields := by
    rw [hrr, List.map_map]
    exact List.map_congr_left (fun g _ => rfl) |>.trans (List.map_id fields)
  cases hl : lookupLast toks f with
  | some v =>
    apply lookupLast_nodup
    · exact List.Nodup.sublist (serializeRec_fst_sublist rr) (hfst ▸ hnd)
    · refine (serializeRec_mem rr f v).mpr ?_
      refine List.mem_map.mpr ⟨f, hf, ?_⟩
      rw [hl]
  | none =>
    apply lookupLast_eq_none
    intro w hw
    obtain ⟨g, hg2, hge⟩ :=
      List.mem_map.mp ((serializeRec_mem rr f w).mp hw)
    simp only [Prod.mk.injEq] at hge
    obtain ⟨rfl, hlg⟩ := hge
    rw [hl] at hlg
    cases hlg

theorem round_trip_core (toks : List (List Char × List Char))
    (fields : List (List Char))
    (hg : ∀ p ∈ toks, GoodName p.1 ∧ GoodVal p.2) (hnd : fields.Nodup)
    (hfn : ∀ f ∈ fields, GoodName f) :
    extract_fields
        (joinC ((serializeRec
          (fields.map (fun f => (f, lookupLast toks f)))).map mkTok))
        fields =
      .ok (fields.map (fun f => (f, lookupLast toks f))) := by
  rw [extract_fields_joinC _ fields (serializeRec_good toks fields hg hfn)]
  congr 1
  apply List.map_congr_left
  intro f hf
  rw [lookupLast_serializeRec toks fields hnd f hf]

theorem parse_headers_cons (l : List Char) (rest : List (List Char))
    (st : Tables) :
    parse_headers (l :: rest) st =
      if l.take 2 = ['#', '#'] then
        (processLine (stripHash l) st).bind
          (fun st2 => parse_headers rest st2)
      else .ok st := rfl

theorem parse_headers_append (pre more : List (List Char)) :
    ∀ st st2 : Tables, (∀ l ∈ pre, l.take 2 = ['#', '#']) →
      parse_headers pre st = .ok st2 →
      parse_headers (pre ++ more) st = parse_headers more st2 := by
  induction pre with
  | nil =>
    intro st st2 _ h
    cases h
    rfl
  | cons l pre ih =>
    intro st st2 hmarks h
    have hm := hmarks l (List.mem_cons_self ..)
    rw [List.cons_append, parse_headers_cons, if_pos hm]
    rw [parse_headers_cons, if_pos hm] at h
    cases hp : processLine (stripHash l) st with
    | ok st1 =>
      rw [hp] at h
      simp only [Except.bind] at h ⊢
      exact ih st1 st2 (fun x hx => hmarks x (List.mem_cons_of_mem _ hx)) h
    | error e =>
      rw [hp] at h
      simp only [Except.bind] at h
      cases h

/-- Action taken by `parse_headers` for each classification, factored
out of the if/elif chain. -/
def applyCat : HCat → List Char → Tables → Except HeaderErr Tables
  | .info, l, st =>
    (multi_key_parse l info_fields).map
      (fun r => { st with md_info := st.md_info ++ [r] })
  | .filt, l, st =>
    (multi_key_parse l filter_fields).map
      (fun r => { st with md_filter := st.md_filter ++ [r] })
  | .fmt, l, st =>
    (multi_key_parse l format_fields).map
      (fun r => { st with md_format := st.md_format ++ [r] })
  | .alt, l, st =>
    (multi_key_parse l alt_fields).map
      (fun r => { st with md_alt := st.md_alt ++ [r] })
  | .contig, l, st =>
    (multi_key_parse l contig_fields).map
      (fun r => { st with md_contig := st.md_contig ++ [r] })
  | .sample, l, st =>
    (multi_key_parse l sample_fields).map
      (fun r => { st with md_sample := st.md_sample ++ [r] })
  | .pedigree, _, _ => .error .notImplemented
  | .keypair, l, st =>
    (match splitEq l with
     | [k, v] => .ok { st with md_keypairs := st.md_keypairs ++ [(k, v)] }
     | _ => .error (.invalidHeader l))
  | .malformed, l, _ => .error (.invalidHeader l)

theorem processLine_eq_applyCat (l : List Char) (st : Tables) :
    processLine l st = applyCat (classify_code l) l st := by
  unfold processLine classify_code
  split_ifs with h1 h2 h3 h4 h5 h6 h7 h8
  all_goals try rfl
  rcases hsp : splitEq l with _ | ⟨a, t⟩
  · rfl
  · rcases t with _ | ⟨b, t2⟩
    · rfl
    · rcases t2 with _ | ⟨c, t3⟩
      · exact absurd (by rw [hsp]; rfl) h8
      · rfl

theorem classify_spec_eq_code (l : List Char) :
    classify_spec l = classify_code l := by
  unfold classify_spec classify_code spec_prefix_list
  simp only [List.find?_cons, List.find?_nil]
  cases h1 : "INFO".toList.isPrefixOf l <;>
    cases h2 : "FILTER".toList.isPrefixOf l <;>
      cases h3 : "FORMAT".toList.isPrefixOf l <;>
        cases h4 : "ALT".toList.isPrefixOf l <;>
          cases h5 : "contig".toList.isPrefixOf l <;>
            cases h6 : "SAMPLE".toList.isPrefixOf l <;>
              cases h7 : "PEDIGREE".toList.isPrefixOf l <;>
                simp [h1, h2, h3, h4, h5, h6, h7]

theorem isPrefixOf_self_append (p t : List Char) :
    p.isPrefixOf (p ++ t) = true := by
  induction p with
  | nil => simp [List.isPrefixOf]
  | cons c p ih => simp [List.isPrefixOf, ih]

theorem containsEqLt_false_split (l : List Char)
    (h : containsEqLt l = false) : splitEqLt l = [l] := by
  induction l with
  | nil => rfl
  | cons c rest ih =>
    cases rest with
    | nil => rfl
    | cons d rest2 =>
      simp only [containsEqLt] at h
      by_cases hcd : c = '=' ∧ d = '<'
      · rw [if_pos hcd] at h
        cases h
      · rw [if_neg hcd] at h
        simp only [splitEqLt]
        rw [if_neg hcd, ih h]

theorem multi_key_parse_no_bracket (l : List Char)
    (fields : List (List Char)) (h : containsEqLt l = false) :
    multi_key_parse l fields = .error .indexError := by
  unfold multi_key_parse
  rw [containsEqLt_false_split l h]

theorem processLine_info (t : List Char) (st : Tables) :
    processLine ("INFO".toList ++ t) st =
      (multi_key_parse ("INFO".toList ++ t) info_fields).map
        (fun r => { st with md_info := st.md_info ++ [r] }) := by
  have ht : "INFO".toList.isPrefixOf ("INFO".toList ++ t) = true :=
    isPrefixOf_self_append _ _
  unfold processLine
  simp [ht, List.isPrefixOf]

theorem processLine_filter (t : List Char) (st : Tables) :
    processLine ("FILTER".toList ++ t) st =
      (multi_key_parse ("FILTER".toList ++ t) filter_fields).map
        (fun r => { st with md_filter := st.md_filter ++ [r] }) := by
  have ht : "FILTER".toList.isPrefixOf ("FILTER".toList ++ t) = true :=
    isPrefixOf_self_append _ _
  unfold processLine
  simp [ht, List.isPrefixOf]

theorem processLine_format (t : List Char) (st : Tables) :
    processLine ("FORMAT".toList ++ t) st =
      (multi_key_parse ("FORMAT".toList ++ t) format_fields).map
        (fun r => { st with md_format := st.md_format ++ [r] }) := by
  have ht : "FORMAT".toList.isPrefixOf ("FORMAT".toList ++ t) = true :=
    isPrefixOf_self_append _ _
  unfold processLine
  simp [ht, List.isPrefixOf]

theorem processLine_alt (t : List Char) (st : Tables) :
    processLine ("ALT".toList ++ t) st =
      (multi_key_parse ("ALT".toList ++ t) alt_fields).map
        (fun r => { st with md_alt := st.md_alt ++ [r] }) := by
  have ht : "ALT".toList.isPrefixOf ("ALT".toList ++ t) = true :=
    isPrefixOf_self_append _ _
  unfold processLine
  simp [ht, List.isPrefixOf]

theorem processLine_contig (t : List Char) (st : Tables) :
    processLine ("contig".toList ++ t) st =
      (multi_key_parse ("contig".toList ++ t) contig_fields).map
        (fun r => { st with md_contig := st.md_contig ++ [r] }) := by
  have ht : "contig".toList.isPrefixOf ("contig".toList ++ t) = true :=
    isPrefixOf_self_append _ _
  unfold processLine
  simp [ht, List.isPrefixOf]

theorem processLine_sample (t : List Char) (st : Tables) :
    processLine ("SAMPLE".toList ++ t) st =
      (multi_key_parse ("SAMPLE".toList ++ t) sample_fields).map
        (fun r => { st with md_sample := st.md_sample ++ [r] }) := by
  have ht : "SAMPLE".toList.isPrefixOf ("SAMPLE".toList ++ t) = true :=
    isPrefixOf_self_append _ _
  unfold processLine
  simp [ht, List.isPrefixOf]

theorem processLine_pedigree (t : List Char) (st : Tables) :
    processLine ("PEDIGREE".toList ++ t) st = .error .notImplemented := by
  have ht : "PEDIGREE".toList.isPrefixOf ("PEDIGREE".toList ++ t) = true :=
    isPrefixOf_self_append _ _
  unfold processLine
  simp [ht, List.isPrefixOf]

/-- A marker-stripped line on which the whole parse fails: a PEDIGREE
line, or a line that matches no prefix of the if/elif chain and does
not split at `=` into exactly two pieces. -/
def badLine (l : List Char) : Prop :=
  "PEDIGREE".toList.isPrefixOf l = true ∨
    ((∀ p ∈ structuredPrefixes, p.isPrefixOf l = false) ∧
      "PEDIGREE".toList.isPrefixOf l = false ∧ (splitEq l).length ≠ 2)

theorem processLine_nomatch (l : List Char) (st : Tables)
    (hstruct : ∀ p ∈ structuredPrefixes, p.isPrefixOf l = false)
    (hped : "PEDIGREE".toList.isPrefixOf l = false) :
    processLine l st =
      match splitEq l with
      | [k, v] => .ok { st with md_keypairs := st.md_keypairs ++ [(k, v)] }
      | _ => .error (.invalidHeader l) := by
  have h1 := hstruct "INFO".toList (by simp [structuredPrefixes])
  have h2 := hstruct "FILTER".toList (by simp [structuredPrefixes])
  have h3 := hstruct "FORMAT".toList (by simp [structuredPrefixes])
  have h4 := hstruct "ALT".toList (by simp [structuredPrefixes])
  have h5 := hstruct "contig".toList (by simp [structuredPrefixes])
  have h6 := hstruct "SAMPLE".toList (by simp [structuredPrefixes])
  unfold processLine
  rw [h1, h2, h3, h4, h5, h6, hped]
  rfl

theorem processLine_badLine (l : List Char) (st : Tables)
    (h : badLine l) : ∃ e, processLine l st = .error e := by
  rcases h with hp | ⟨hstruct, hped, hlen⟩
  · obtain ⟨t, rfl⟩ := List.isPrefixOf_iff_prefix.mp hp
    exact ⟨.notImplemented, processLine_pedigree t st⟩
  · refine ⟨.invalidHeader l, ?_⟩
    rw [processLine_nomatch l st hstruct hped]
    rcases hsp : splitEq l with _ | ⟨a, t⟩
    · rfl
    · rcases t with _ | ⟨b, t2⟩
      · rfl
      · rcases t2 with _ | ⟨c, t3⟩
        · exact absurd (by rw [hsp]; rfl) hlen
        · rfl

theorem stripHash_spec (l : List Char) :
    ∃ n m : Nat,
      l = List.replicate n '#' ++ stripHash l ++ List.replicate m '#' ∧
      (stripHash l).head? ≠ some '#' ∧
      (stripHash l).getLast? ≠ some '#' := by
  refine ⟨(l.takeWhile (fun c => c == '#')).length,
    ((l.dropWhile (fun c => c == '#')).reverse.takeWhile
      (fun c => c == '#')).length, ?_, ?_, ?_⟩
  · have h1 := List.takeWhile_append_dropWhile (fun c => c == '#') l
    have hr1 : l.takeWhile (fun c => c == '#') =
        List.replicate (l.takeWhile (fun c => c == '#')).length '#' :=
      List.eq_replicate_of_mem (fun b hb => by
        have hbb := List.mem_takeWhile_imp hb
        simpa using hbb)
    have h2 := List.takeWhile_append_dropWhile (fun c => c == '#')
      (l.dropWhile (fun c => c == '#')).reverse
    have hr2 : (l.dropWhile (fun c => c == '#')).reverse.takeWhile
          (fun c => c == '#') =
        List.replicate ((l.dropWhile (fun c => c == '#')).reverse.takeWhile
          (fun c => c == '#')).length '#' :=
      List.eq_replicate_of_mem (fun b hb => by
        have hbb := List.mem_takeWhile_imp hb
        simpa using hbb)
    have h3 := congrArg List.reverse h2
    rw [List.reverse_append, List.reverse_reverse] at h3
    conv_lhs => rw [← h1, ← h3]
    rw [hr1, hr2]
    simp [stripHash, List.append_assoc]
  · have hrev : (stripHash l).head? =
        ((l.dropWhile (fun c => c == '#')).reverse.dropWhile
          (fun c => c == '#')).getLast? := by
      rw [stripHash, List.head?_reverse]
    rw [hrev]
    cases hg : ((l.dropWhile (fun c => c == '#')).reverse.dropWhile
        (fun c => c == '#')).getLast? with
    | none => simp
    | some y =>
      have h2 := List.takeWhile_append_dropWhile (fun c => c == '#')
        (l.dropWhile (fun c => c == '#')).reverse
      have hrl : (l.dropWhile (fun c => c == '#')).reverse.getLast? =
          some y := by
        rw [← h2, List.getLast?_append, hg]
        rfl
      rw [List.getLast?_reverse] at hrl
      have H := List.head?_dropWhile_not (fun c => c == '#') l
      rw [hrl] at H
      have Hy : (y == '#') = false := H
      simp only [ne_eq, Option.some.injEq]
      intro hyy
      rw [hyy] at Hy
      simp at Hy
  · have hrev : (stripHash l).getLast? =
        ((l.dropWhile (fun c => c == '#')).reverse.dropWhile
          (fun c => c == '#')).head? := by
      rw [stripHash, List.getLast?_reverse]
    rw [hrev]
    cases hh : ((l.dropWhile (fun c => c == '#')).reverse.dropWhile
        (fun c => c == '#')).head? with
    | none => simp
    | some y =>
      have H := List.head?_dropWhile_not (fun c => c == '#')
        (l.dropWhile (fun c => c == '#')).reverse
      rw [hh] at H
      have Hy : (y == '#') = false := H
      simp only [ne_eq, Option.some.injEq]
      intro hyy
      rw [hyy] at Hy
      simp at Hy

/-- C1 (code bug exhibit): on the line `INFO=<ID=x,Description="a=b">`
the regex tokenizer does keep `Description="a=b"` as one token, but the
subsequent split of every token at every `=` truncates the extracted
Description value to `"a` — the embedded `=` is not preserved and the
quoted value is corrupted, contrary to the claim. -/
theorem claim_C1 :
    tokenize "ID=x,Description=\"a=b\"".toList =
      ["ID=x".toList, "Description=\"a=b\"".toList] ∧
    multi_key_parse "INFO=<ID=x,Description=\"a=b\">".toList info_fields =
      .ok [("ID".toList, some "x".toList), ("Number".toList, none),
        ("Type".toList, none), ("Description".toList, some "\"a".toList),
        ("Source".toList, none), ("Version".toList, none)] ∧
    ("\"a".toList : List Char) ≠ "\"a=b\"".toList :=
  ⟨rfl, rfl, by decide⟩

/-- C3: header processing stops at the first line that does not begin
with `##`; the parse of any line list equals the parse of its longest
prefix of `##`-marked lines, so no later line contributes to any
table. -/
theorem claim_C3 (lines : List (List Char)) (st : Tables) :
    parse_headers lines st =
      parse_headers (lines.takeWhile (fun l => l.take 2 == ['#', '#'])) st := by
  induction lines generalizing st with
  | nil => rfl
  | cons l rest ih =>
    by_cases h : l.take 2 = ['#', '#']
    · have hb : (l.take 2 == ['#', '#']) = true := beq_iff_eq.mpr h
      rw [List.takeWhile_cons, hb]
      simp only [if_true]
      rw [parse_headers_cons, parse_headers_cons, if_pos h, if_pos h]
      cases hp : processLine (stripHash l) st with
      | ok st2 =>
        simp only [Except.bind]
        exact ih st2
      | error e => simp only [Except.bind]
    · have hb : (l.take 2 == ['#', '#']) = false := by
        simpa using h
      rw [List.takeWhile_cons, hb]
      simp only [Bool.false_eq_true, if_false]
      rw [parse_headers_cons, if_neg h]
      rfl

/-- C4: classification agrees with the specification's ordered
prefix-list classifier (first match wins); `parse_headers` acts
according to that classification; and a line matching no prefix is a
KEYPAIR exactly when splitting at `=` yields two pieces, which become
the stored (name, value) record unchanged. -/
theorem claim_C4 :
    (∀ l : List Char, classify_spec l = classify_code l) ∧
    (∀ (l : List Char) (st : Tables),
      processLine l st = applyCat (classify_code l) l st) ∧
    (∀ (l : List Char) (st : Tables), classify_code l = .keypair →
      ∃ k v, splitEq l = [k, v] ∧
        processLine l st =
          .ok { st with md_keypairs := st.md_keypairs ++ [(k, v)] }) := by
  refine ⟨classify_spec_eq_code, processLine_eq_applyCat, ?_⟩
  intro l st h
  unfold classify_code at h
  split_ifs at h with h1 h2 h3 h4 h5 h6 h7 h8
  obtain ⟨a, b, hsp⟩ := List.length_eq_two.mp h8
  refine ⟨a, b, hsp, ?_⟩
  unfold processLine
  rw [if_neg h1, if_neg h2, if_neg h3, if_neg h4, if_neg h5, if_neg h6,
    if_neg h7, hsp]

theorem claim_C4_witness :
    ∃ k v, splitEq "myKey=myValue".toList = [k, v] ∧
      processLine "myKey=myValue".toList initTables =
        .ok { initTables with
          md_keypairs := initTables.md_keypairs ++ [(k, v)] } :=
  claim_C4.2.2 "myKey=myValue".toList initTables (by decide)

/-- C5: when a header line whose marker-stripped text is PEDIGREE or
malformed (no category prefix, not splitting at `=` into two pieces) is
reached during processing, the whole conversion returns an error and no
spreadsheet is produced. -/
theorem claim_C5 (pre : List (List Char)) (bad : List Char)
    (rest : List (List Char)) (st : Tables)
    (hmarks : ∀ l ∈ pre, l.take 2 = ['#', '#'])
    (hok : parse_headers pre initTables = .ok st)
    (hbadmark : bad.take 2 = ['#', '#'])
    (hbad : badLine (stripHash bad)) :
    ∃ e, convert (pre ++ bad :: rest) = .error e := by
  obtain ⟨e, he⟩ := processLine_badLine (stripHash bad) st hbad
  refine ⟨e, ?_⟩
  unfold convert
  rw [parse_headers_append pre (bad :: rest) initTables st hmarks hok,
    parse_headers_cons, if_pos hbadmark, he]
  rfl

theorem claim_C5_witness :
    ∃ e, convert ["##fileformat=VCFv4.2".toList,
      "##BOGUS stuff here".toList, "#CHROM".toList] = .error e :=
  claim_C5 ["##fileformat=VCFv4.2".toList] "##BOGUS stuff here".toList
    ["#CHROM".toList]
    { initTables with
      md_keypairs := [("fileformat".toList, "VCFv4.2".toList)] }
    (by decide) rfl (by decide) (by unfold badLine; decide)

/-- C6: a successful `multi_key_parse` returns a record whose field
names are exactly the category's expected field list in order; every
entry's value is the last-wins lookup of that field among the line's
extracted pairs; an expected field carries the absent marker `none`
exactly when the line does not declare it; and no field outside the
expected list appears. -/
theorem claim_C6 (line : List Char) (fields : List (List Char)) (r : Rec8)
    (h : multi_key_parse line fields = .ok r) :
    r.map Prod.fst = fields ∧
    (∀ f v, (f, v) ∈ r → f ∈ fields) ∧
    ∃ pairs : List (List Char × List Char),
      tokensToPairs (tokenize ((splitEqLt line).getD 1 []).dropLast) =
        .ok pairs ∧
      r = fields.map (fun f => (f, lookupLast pairs f)) ∧
      ∀ f ∈ fields, ((f, none) ∈ r ↔ lookupLast pairs f = none) := by
  unfold multi_key_parse at h
  rcases hsp : splitEqLt line with _ | ⟨a, t⟩
  · rw [hsp] at h
    have h2 : (Except.error .indexError : Except HeaderErr Rec8) = .ok r := h
    cases h2
  · rcases t with _ | ⟨p1, t2⟩
    · rw [hsp] at h
      have h2 : (Except.error .indexError : Except HeaderErr Rec8) = .ok r :=
        h
      cases h2
    · rw [hsp] at h
      have h3 : (tokensToPairs (tokenize p1.dropLast)).map
          (fun pairs => fields.map (fun f => (f, lookupLast pairs f))) =
            .ok r := h
      clear h
      cases htp : tokensToPairs (tokenize p1.dropLast) with
      | error e =>
        rw [htp] at h3
        cases h3
      | ok pairs =>
        rw [htp] at h3
        simp only [Except.map] at h3
        have h := h3
        have hr : r = fields.map (fun f => (f, lookupLast pairs f)) :=
          (Except.ok.inj h).symm
        subst hr
        have hgetD : (a :: p1 :: t2).getD 1 [] = p1 := rfl
        refine ⟨?_, ?_, pairs, by rw [hgetD]; exact htp, rfl, ?_⟩
        · rw [List.map_map]
          exact (List.map_congr_left (fun g _ => rfl)).trans
            (List.map_id fields)
        · intro f v hfv
          obtain ⟨g, hg, hge⟩ := List.mem_map.mp hfv
          simp only [Prod.mk.injEq] at hge
          rw [← hge.1]
          exact hg
        · intro f hf
          constructor
          · intro hmem
            obtain ⟨g, hg, hge⟩ := List.mem_map.mp hmem
            simp only [Prod.mk.injEq] at hge
            obtain ⟨rfl, h2⟩ := hge
            exact h2
          · intro hnone
            exact List.mem_map.mpr ⟨f, hf, by rw [hnone]⟩

theorem claim_C6_witness :
    ∃ r : Rec8,
      multi_key_parse
          "FILTER=<ID=q10,Extra=z,Description=\"Quality below 10\">".toList
          filter_fields = .ok r ∧
      r.map Prod.fst = filter_fields :=
  ⟨[("ID".toList, some "q10".toList),
    ("Description".toList, some "\"Quality below 10\"".toList)], rfl,
    (claim_C6
      "FILTER=<ID=q10,Extra=z,Description=\"Quality below 10\">".toList
      filter_fields
      [("ID".toList, some "q10".toList),
        ("Description".toList, some "\"Quality below 10\"".toList)]
      rfl).1⟩

/-- C8: every successful conversion yields exactly the eight sheets
`File Metadata, INFO, FILTER, FORMAT, ALT, contig, SAMPLE, PEDIGREE` in
that order (all present even over empty tables); each sheet pairs its
category's fixed column header with the table's records in insertion
order, absent markers rendered as empty cells by `renderRec`. -/
theorem claim_C8 (lines : List (List Char)) (wb : List Sheet)
    (h : convert lines = .ok wb) :
    wb.map (fun s => s.1) = ["File Metadata", "INFO", "FILTER", "FORMAT",
      "ALT", "contig", "SAMPLE", "PEDIGREE"] ∧
    ∃ st, parse_headers lines initTables = .ok st ∧
      wb = write_spreadsheet st ∧
      wb.map (fun s => s.2.1) = [keypair_fields, info_fields,
        filter_fields, format_fields, alt_fields, contig_fields,
        sample_fields, pedigree_fields] ∧
      wb.map (fun s => s.2.2) =
        [st.md_keypairs.map (fun p => [p.1, p.2]),
          st.md_info.map renderRec, st.md_filter.map renderRec,
          st.md_format.map renderRec, st.md_alt.map renderRec,
          st.md_contig.map renderRec, st.md_sample.map renderRec,
          st.md_pedigree.map renderRec] := by
  unfold convert at h
  cases hp : parse_headers lines initTables with
  | error e => rw [hp] at h; cases h
  | ok st =>
    rw [hp] at h
    simp only [Except.map] at h
    have hwb : wb = write_spreadsheet st := (Except.ok.inj h).symm
    subst hwb
    exact ⟨rfl, st, rfl, rfl, rfl, rfl⟩

theorem claim_C8_witness :
    ∃ wb, convert ["##myKey=myValue".toList] = .ok wb ∧
      wb.map (fun s => s.1) = ["File Metadata", "INFO", "FILTER",
        "FORMAT", "ALT", "contig", "SAMPLE", "PEDIGREE"] :=
  ⟨write_spreadsheet { initTables with
      md_keypairs := [("myKey".toList, "myValue".toList)] }, rfl,
    (claim_C8 ["##myKey=myValue".toList]
      (write_spreadsheet { initTables with
        md_keypairs := [("myKey".toList, "myValue".toList)] }) rfl).1⟩

/-- C9 counterexample: the claim says classification operates on the
line with exactly its two leading marker characters removed, all other
characters (extra leading or trailing `#`) passed through.  On the
recognized line `###X=1#` the code instead strips every leading and
trailing `#` and records the keypair (`X`, `1`), not (`#X`, `1#`). -/
theorem claim_C9_counterexample :
    stripHash "###X=1#".toList ≠ "###X=1#".toList.drop 2 ∧
    parse_headers ["###X=1#".toList] initTables =
      .ok { initTables with md_keypairs := [("X".toList, "1".toList)] } ∧
    ("X".toList, "1".toList) ≠ ("#X".toList, "1#".toList) :=
  ⟨by decide, rfl, by decide⟩

/-- C9 (amended): for every recognized header line, classification
operates on the line with every leading and every trailing `#`
character removed (the processed text neither starts nor ends with
`#`); the interior characters are passed through unchanged. -/
theorem claim_C9 (l : List Char) (rest : List (List Char)) (st : Tables)
    (h : l.take 2 = ['#', '#']) :
    ∃ (n m : Nat) (core : List Char),
      l = List.replicate n '#' ++ core ++ List.replicate m '#' ∧
      core.head? ≠ some '#' ∧ core.getLast? ≠ some '#' ∧
      parse_headers (l :: rest) st =
        (processLine core st).bind (fun st2 => parse_headers rest st2) := by
  obtain ⟨n, m, hdec, hh, hl⟩ := stripHash_spec l
  exact ⟨n, m, stripHash l, hdec, hh, hl,
    by rw [parse_headers_cons, if_pos h]⟩

theorem claim_C9_witness :
    ∃ (n m : Nat) (core : List Char),
      "###X=1#".toList =
        List.replicate n '#' ++ core ++ List.replicate m '#' ∧
      core.head? ≠ some '#' ∧ core.getLast? ≠ some '#' ∧
      parse_headers ["###X=1#".toList] initTables =
        (processLine core initTables).bind
          (fun st2 => parse_headers [] st2) :=
  claim_C9 "###X=1#".toList [] initTables (by decide)

/-- C10: a marker-stripped line that begins with one of the six
structured prefixes but contains no `=<` makes `multi_key_parse` fail
with an index error (from `line.split('=<')[1]`), so the line produces
no record and in particular is never treated as a KEYPAIR. -/
theorem claim_C10 (p l : List Char) (st : Tables)
    (hp : p ∈ structuredPrefixes) (hpre : p.isPrefixOf l = true)
    (hsub : containsEqLt l = false) :
    (∃ e, processLine l st = .error e) ∧
      ∀ st2, processLine l st ≠ .ok st2 := by
  have herr : processLine l st = .error .indexError := by
    obtain ⟨t, rfl⟩ := List.isPrefixOf_iff_prefix.mp hpre
    simp only [structuredPrefixes, List.map_cons, List.map_nil,
      List.mem_cons, List.not_mem_nil, or_false] at hp
    rcases hp with rfl | rfl | rfl | rfl | rfl | rfl
    · rw [processLine_info, multi_key_parse_no_bracket _ _ hsub]
      rfl
    · rw [processLine_filter, multi_key_parse_no_bracket _ _ hsub]
      rfl
    · rw [processLine_format, multi_key_parse_no_bracket _ _ hsub]
      rfl
    · rw [processLine_alt, multi_key_parse_no_bracket _ _ hsub]
      rfl
    · rw [processLine_contig, multi_key_parse_no_bracket _ _ hsub]
      rfl
    · rw [processLine_sample, multi_key_parse_no_bracket _ _ hsub]
      rfl
  exact ⟨⟨.indexError, herr⟩, fun st2 hok => by rw [herr] at hok; cases hok⟩

theorem claim_C10_witness :
    (∃ e, processLine "INFOLINE=value".toList initTables = .error e) ∧
      ∀ st2, processLine "INFOLINE=value".toList initTables ≠ .ok st2 :=
  claim_C10 "INFO".toList "INFOLINE=value".toList initTables (by decide)
    (by decide) (by decide)

theorem wfInnerItem_plain (c : Char) (h1 : c ≠ '"') (h2 : c ≠ '\\') :
    WFInnerItem [c] :=
  Or.inl ⟨c, rfl, h1, h2⟩

theorem wfInnerItem_escape (d : Char) (h : d ≠ '\n') :
    WFInnerItem ['\\', d] :=
  Or.inr ⟨d, rfl, h⟩

theorem goodVal_singletons (v : List Char)
    (h : v.all (fun c => isPlainChar c && !(c == '=')) = true) :
    GoodVal v := by
  refine ⟨v.map (fun c => [c]), (flatten_map_singleton v).symm, ?_⟩
  intro u hu
  obtain ⟨c, hc, rfl⟩ := List.mem_map.mp hu
  have hc2 := List.all_eq_true.mp h c hc
  simp only [Bool.and_eq_true, Bool.not_eq_true', beq_eq_false_iff_ne,
    ne_eq] at hc2
  refine ⟨Or.inl ⟨c, rfl, hc2.1⟩, ?_⟩
  intro hm
  simp only [List.mem_singleton] at hm
  exact hc2.2 hm.symm

theorem goodVal_span (items : List (List Char))
    (hitems : ∀ it ∈ items, WFInnerItem it)
    (hne : '=' ∉ items.flatten) :
    GoodVal ('"' :: (items.flatten ++ ['"'])) := by
  refine ⟨['"' :: (items.flatten ++ ['"'])], by simp, ?_⟩
  intro u hu
  simp only [List.mem_singleton] at hu
  subst hu
  refine ⟨Or.inr ⟨items, rfl, hitems⟩, ?_⟩
  intro hm
  rcases List.mem_cons.mp hm with he | hm2
  · exact absurd he (by decide)
  · rcases List.mem_append.mp hm2 with hm3 | hm4
    · exact hne hm3
    · simp only [List.mem_singleton] at hm4
      exact absurd hm4 (by decide)

/-- C2: in a well-formed attribute body, a double-quoted field value —
even one containing commas and escaped quotes — stays inside a single
`name=value` token of the `re.findall` scan (the body tokenizes exactly
into its tokens, with that token among them), and the pair extracted
from the token carries the whole quoted value, surrounding quotes
included. -/
theorem claim_C2 (toks : List (List Char × List Char)) (name : List Char)
    (items : List (List Char))
    (hg : ∀ p ∈ toks, GoodName p.1 ∧ GoodVal p.2)
    (hmem : (name, '"' :: (items.flatten ++ ['"'])) ∈ toks) :
    tokenize (joinC (toks.map mkTok)) = toks.map mkTok ∧
    (name ++ '=' :: ('"' :: (items.flatten ++ ['"']))) ∈
      tokenize (joinC (toks.map mkTok)) ∧
    tokensToPairs (toks.map mkTok) = .ok toks := by
  have h1 := tokenize_joinC toks hg
  have h2 := tokensToPairs_ok toks (fun p hp =>
    ⟨goodName_no_eq (hg p hp).1, goodVal_no_eq (hg p hp).2⟩)
  refine ⟨h1, ?_, h2⟩
  rw [h1]
  exact List.mem_map.mpr ⟨_, hmem, rfl⟩

theorem claim_C2_witness :
    tokenize (joinC ([(("ID".toList : List Char), "q10".toList),
        ("Description".toList,
          '"' :: ([['a'], [','], [' '], ['b'], ['\\', '"'], ['c'],
            ['\\', '"']].flatten ++ ['"']))].map mkTok)) =
      [(("ID".toList : List Char), "q10".toList),
        ("Description".toList,
          '"' :: ([['a'], [','], [' '], ['b'], ['\\', '"'], ['c'],
            ['\\', '"']].flatten ++ ['"']))].map mkTok ∧
    ("Description".toList ++ '=' ::
        ('"' :: ([['a'], [','], [' '], ['b'], ['\\', '"'], ['c'],
          ['\\', '"']].flatten ++ ['"']))) ∈
      tokenize (joinC ([(("ID".toList : List Char), "q10".toList),
        ("Description".toList,
          '"' :: ([['a'], [','], [' '], ['b'], ['\\', '"'], ['c'],
            ['\\', '"']].flatten ++ ['"']))].map mkTok)) ∧
    tokensToPairs ([(("ID".toList : List Char), "q10".toList),
        ("Description".toList,
          '"' :: ([['a'], [','], [' '], ['b'], ['\\', '"'], ['c'],
            ['\\', '"']].flatten ++ ['"']))].map mkTok) =
      .ok [(("ID".toList : List Char), "q10".toList),
        ("Description".toList,
          '"' :: ([['a'], [','], [' '], ['b'], ['\\', '"'], ['c'],
            ['\\', '"']].flatten ++ ['"']))] := by
  refine claim_C2 _ "Description".toList
    [['a'], [','], [' '], ['b'], ['\\', '"'], ['c'], ['\\', '"']] ?_ ?_
  · intro p hp
    simp only [List.mem_cons, List.not_mem_nil, or_false] at hp
    rcases hp with rfl | rfl
    · exact ⟨⟨by decide, by decide⟩, goodVal_singletons _ (by decide)⟩
    · refine ⟨⟨by decide, by decide⟩, goodVal_span _ ?_ (by decide)⟩
      intro it hit
      simp only [List.mem_cons, List.not_mem_nil, or_false] at hit
      rcases hit with rfl | rfl | rfl | rfl | rfl | rfl | rfl
      · exact wfInnerItem_plain 'a' (by decide) (by decide)
      · exact wfInnerItem_plain ',' (by decide) (by decide)
      · exact wfInnerItem_plain ' ' (by decide) (by decide)
      · exact wfInnerItem_plain 'b' (by decide) (by decide)
      · exact wfInnerItem_escape '"' (by decide)
      · exact wfInnerItem_plain 'c' (by decide) (by decide)
      · exact wfInnerItem_escape '"' (by decide)
  · simp

/-- C7: round trip of the field-extraction step.  For a well-formed
attribute body (a comma join of `name=value` tokens with plain names
and quote-aware values, one `=` per token), re-serializing the
extracted record's present fields as `name=value` tokens and running
the same extraction again returns the same record. -/
theorem claim_C7 (toks : List (List Char × List Char))
    (fields : List (List Char)) (r : Rec8)
    (hg : ∀ p ∈ toks, GoodName p.1 ∧ GoodVal p.2)
    (hnd : fields.Nodup) (hfn : ∀ f ∈ fields, GoodName f)
    (hr : extract_fields (joinC (toks.map mkTok)) fields = .ok r) :
    extract_fields (joinC ((serializeRec r).map mkTok)) fields = .ok r := by
  rw [extract_fields_joinC toks fields hg] at hr
  have hre : r = fields.map (fun f => (f, lookupLast toks f)) :=
    (Except.ok.inj hr).symm
  subst hre
  exact round_trip_core toks fields hg hnd hfn

theorem claim_C7_witness :
    extract_fields (joinC ((serializeRec
        [(("ID".toList : List Char), some "DP".toList),
          ("Description".toList, none)]).map mkTok)) filter_fields =
      .ok [(("ID".toList : List Char), some "DP".toList),
        ("Description".toList, none)] := by
  refine claim_C7 [("ID".toList, "DP".toList)] filter_fields
    [(("ID".toList : List Char), some "DP".toList),
      ("Description".toList, none)] ?_ (by decide) ?_ rfl
  · intro p hp
    simp only [List.mem_cons, List.not_mem_nil, or_false] at hp
    subst hp
    exact ⟨⟨by decide, by decide⟩, goodVal_singletons _ (by decide)⟩
  · intro f hf
    simp only [filter_fields, List.map_cons, List.map_nil, List.mem_cons,
      List.not_mem_nil, or_false] at hf
    rcases hf with rfl | rfl
    · exact ⟨by decide, by decide⟩
    · exact ⟨by decide, by decide⟩

end Vcf2Excel
